import Mathlib

/-!
A shallow embedding of the diceware passphrase library (package `diceware`,
file `diceware.go` of the v2 API, together with the `wordlist` package) and
proofs about its word-rolling, passphrase-assembly and entropy-enhancement
algorithms.

Modelling conventions:
* Go strings are byte sequences; all data handled here is ASCII, so a Go
  string is modelled as a `List Char` (`GoStr`) and Go byte indexing/slicing
  is list indexing/slicing.
* A `RandomSource` is modelled by the sequence of answers it will give to
  successive `GetRandom` calls (`RandTape`).  Each entry is a function from
  the requested bound to `Option Nat`: `some v` is a successful draw of `v`,
  `none` a failure of the underlying entropy source.  An exhausted tape also
  models a failing source.  The engine, like the Go code, uses the returned
  value without checking the bound; theorems that need in-range draws state
  that as a hypothesis (`RespectsBounds`), which is the documented contract
  of `GetRandom` (`0 ≤ value < bound`).
* Go `int` is modelled as `Int` where the sign matters (`WordCount`) and as
  `Nat` for the always-nonnegative roll values and indices.
* Go errors built with `errors.New` / `fmt.Errorf("...%w...")` wrapping are
  modelled by the inductive `DiceErr`; `errors.Is`-style kind inspection is
  `DiceErr.kind`, which unwraps the `%w` chain.
-/

namespace Diceware

/-- Go strings modelled as lists of (ASCII) characters. -/
abbrev GoStr := List Char

/-- One pending answer of a random source: from the requested (exclusive)
bound, the drawn value, or `none` when the entropy source fails. -/
abbrev RandDraw := Nat → Option Nat

/-- A random source, modelled by the sequence of its future answers. -/
abbrev RandTape := List RandDraw

/-- `RandomSource.GetRandom(maxVal)`: consume the next pending answer of the
source.  An exhausted tape behaves like a failing source. -/
def GetRandom (tape : RandTape) (bound : Nat) : Option Nat × RandTape :=
  match tape with
  | [] => (none, [])
  | f :: rest => (f bound, rest)

/-- The documented contract of `GetRandom`: every successful draw is
strictly below the requested bound (`crypto/rand.Int` guarantees this). -/
def RespectsBounds (tape : RandTape) : Prop :=
  ∀ f ∈ tape, ∀ b v, f b = some v → v < b

/-- The error values of the package: the three sentinel errors declared with
`errors.New`, the (opaque) failure of the underlying entropy source, and one
constructor per `fmt.Errorf("...: %w", ...)` wrapping site. -/
inductive DiceErr where
  /-- `ErrInvalidWordlist`: a nil wordlist was provided. -/
  | invalidWordlist
  /-- `ErrInvalidWordCount`: a zero or negative word count was provided. -/
  | invalidWordCount
  /-- `ErrInvalidWordFetched` wrapped as
  `fmt.Errorf("%w for roll value: %d", ErrInvalidWordFetched, rollValue)`. -/
  | invalidWordFetched (rollValue : Nat)
  /-- The opaque error of the underlying entropy source. -/
  | randFailure
  /-- `RollWord`: `"failed to generate random number: %w"`. -/
  | randWrap (e : DiceErr)
  /-- `RollWords`: `"failed to generate word %d: %w"` (1-based index). -/
  | wordWrap (i : Nat) (e : DiceErr)
  /-- `RollWords`: `"failed to determine words to enhance: %w"`. -/
  | enhanceCountWrap (e : DiceErr)
  /-- `RollWords`: `"failed to generate entropy enhancer: %w"`. -/
  | enhancerWrap (e : DiceErr)
  /-- `RollWords`: `"failed to determine position for enhancer: %w"`. -/
  | posWrap (e : DiceErr)
  deriving DecidableEq, Repr

/-- The four documented error kinds of the taxonomy. -/
inductive ErrKind where
  | invalidWordlist
  | invalidWordCount
  | invalidWordFetched
  | randomness
  deriving DecidableEq, Repr

/-- `errors.Is`-style kind inspection: unwrap the `%w` chain down to the
sentinel (or entropy-source) error at its root. -/
def DiceErr.kind : DiceErr → ErrKind
  | .invalidWordlist => .invalidWordlist
  | .invalidWordCount => .invalidWordCount
  | .invalidWordFetched _ => .invalidWordFetched
  | .randFailure => .randomness
  | .randWrap e => e.kind
  | .wordWrap _ e => e.kind
  | .enhanceCountWrap e => e.kind
  | .enhancerWrap e => e.kind
  | .posWrap e => e.kind

/-- The `Wordlist` interface: `FetchWord` (empty string = no word for that
roll), `Rolls`, and `SidesOfDice` (a `*big.Int` in Go, always a small
nonnegative value in practice). -/
structure Wordlist where
  FetchWord : Nat → GoStr
  Rolls : Nat
  SidesOfDice : Nat

/-- The dice-roll accumulation loop of `RollWord`: for `i := wl.Rolls(); i > 0;
i--` draw one value bounded by `SidesOfDice`, add 1 (dice are 1-indexed) and
add it into the accumulator at decimal place value `10^(i-1)`.  Returns
`none` when a draw fails. -/
def rollLoop (sides : Nat) : Nat → Nat → RandTape → Option Nat × RandTape
  | 0, acc, tape => (some acc, tape)
  | i + 1, acc, tape =>
    match GetRandom tape sides with
    | (none, rest) => (none, rest)
    | (some v, rest) => rollLoop sides i (acc + 10 ^ i * (v + 1)) rest

/-- `RollWord(wl, randomSource)`: returns the Go pair `(word, error)` plus the
remaining tape of the source.  The `randomSource == nil` defaulting branch of
the Go function is resolved by the caller in this model (`RollWords` replaces
a nil source by the package default before any call, and the theorems about
direct calls always supply a source), so `RollWord` here takes the already
resolved tape. -/
def RollWord (wl : Option Wordlist) (tape : RandTape) :
    (GoStr × Option DiceErr) × RandTape :=
  match wl with
  | none => (([], some .invalidWordlist), tape)
  | some wl =>
    match rollLoop wl.SidesOfDice wl.Rolls 0 tape with
    | (none, rest) => (([], some (.randWrap .randFailure)), rest)
    | (some rollValue, rest) =>
      let word := wl.FetchWord rollValue
      if word.length = 0 then
        (([], some (.invalidWordFetched rollValue)), rest)
      else
        ((word, none), rest)

/-- `PassphraseOptions`. -/
structure PassphraseOptions where
  WordCount : Int
  Separator : GoStr
  Wordlist : Option Wordlist
  EnhanceEntropy : Bool
  RandomSource : Option RandTape

/-- The `map[int]string` literal of `wordlist.ExtraEntropy` (a Go map from
2-dice roll codes to single-character strings), modelled as an association
list looked up with `List.lookup`. -/
def extraEntropyTable : List (Nat × GoStr) :=
  [(11, ['~']), (12, ['!']), (13, ['@']), (14, ['#']), (15, ['$']), (16, ['%']),
   (21, ['^']), (22, ['&']), (23, ['*']), (24, ['(']), (25, [')']), (26, ['-']),
   (31, ['_']), (32, ['=']), (33, ['+']), (34, ['\x7b']), (35, ['\x7d']), (36, ['[']),
   (41, [']']), (42, ['|']), (43, ['.']), (44, [':']), (45, [';']), (46, ['/']),
   (51, ['?']), (52, ['>']), (53, ['<']), (54, ['1']), (55, ['2']), (56, ['3']),
   (61, ['4']), (62, ['5']), (63, ['6']), (64, ['7']), (65, ['8']), (66, ['9'])]

/-- `wordlist.ExtraEntropy`: `NewMap(2, 6, ...)` over the table above; a Go
map lookup of a missing key yields the empty string. -/
def ExtraEntropy : Wordlist :=
  { FetchWord := fun rv => (extraEntropyTable.lookup rv).getD []
    Rolls := 2
    SidesOfDice := 6 }

/-- The 36 characters the extra-entropy table can produce. -/
def extraEntropyChars : List Char :=
  (extraEntropyTable.map Prod.snd).flatten

/-- Leftmost occurrence search, as Go `strings.Index`: decompose `s` into
`pre ++ sep ++ rest` at the leftmost occurrence of `sep`, or `none` when
`sep` does not occur in `s`. -/
def findSep (sep : GoStr) : GoStr → Option (GoStr × GoStr)
  | [] => if sep.isPrefixOf ([] : GoStr) then some ([], []) else none
  | c :: s' =>
    if sep.isPrefixOf (c :: s') then some ([], (c :: s').drop sep.length)
    else (findSep sep s').map fun pr => (c :: pr.1, pr.2)

/-- Go `strings.Contains(s, sub)`. -/
def containsGo (s sub : GoStr) : Bool :=
  (findSep sub s).isSome

/-- The word-generation loop of `RollWords`: fill indices `idx, idx+1, ...`
(`remaining` of them); a failure at 0-based index `i` aborts with
`"failed to generate word %d: %w"` carrying the 1-based index `i+1`. -/
def genWords (wl : Wordlist) : Nat → Nat → RandTape →
    Except DiceErr (List GoStr × RandTape)
  | 0, _, tape => .ok ([], tape)
  | remaining + 1, idx, tape =>
    match RollWord (some wl) tape with
    | ((_, some e), _) => .error (.wordWrap (idx + 1) e)
    | ((w, none), rest) =>
      match genWords wl remaining (idx + 1) rest with
      | .error e => .error e
      | .ok (ws, t) => .ok (w :: ws, t)

/-- The entropy-enhancement loop of `RollWords`
(`for i := 0; i < numToEnhance; { ... }`), with explicit fuel.  One unit of
fuel is spent per iteration; since every iteration consumes at least one tape
entry (`ExtraEntropy` rolls two dice), fuel `tape.length + 1` can never run
out before the tape does, and the fuel-exhaustion branch (reached only with
an already empty tape) returns exactly what the next iteration would: the
enhancer roll's randomness failure.  `enhanceLoopF_fuel_congr` below proves
the result independent of the fuel above `tape.length`. -/
def enhanceLoopF (sep : GoStr) :
    Nat → List GoStr → Nat → Nat → RandTape → Except DiceErr (List GoStr × RandTape)
  | fuel, words, i, numToEnhance, tape =>
    if i < numToEnhance then
      match fuel with
      | 0 => .error (.enhancerWrap (.randWrap .randFailure))
      | fuel + 1 =>
        match RollWord (some ExtraEntropy) tape with
        | ((_, some e), _) => .error (.enhancerWrap e)
        | ((enhancer, none), t1) =>
          if containsGo sep enhancer then
            enhanceLoopF sep fuel words i numToEnhance t1
          else
            let w := words.getD i []
            match GetRandom t1 w.length with
            | (none, _) => .error (.posWrap .randFailure)
            | (some pos, t2) =>
              enhanceLoopF sep fuel
                (words.set i (w.take (pos + 1) ++ enhancer ++ w.drop (pos + 1)))
                (i + 1) numToEnhance t2
    else
      .ok (words, tape)

/-- The entropy-enhancement loop with its sufficient fuel. -/
def enhanceLoop (sep : GoStr) (words : List GoStr) (i numToEnhance : Nat)
    (tape : RandTape) : Except DiceErr (List GoStr × RandTape) :=
  enhanceLoopF sep (tape.length + 1) words i numToEnhance tape

/-- `RollWords(opts)`: validate (nil wordlist first, then non-positive word
count), default a nil random source to the package-level `defaultRandom`
(passed here as an explicit parameter), generate the words, optionally run
the entropy-enhancement pass, and join with the separator.  Returns the Go
pair `(passphrase, error)`. -/
def RollWords (defaultRandom : RandTape) (opts : PassphraseOptions) :
    GoStr × Option DiceErr :=
  match opts.Wordlist with
  | none => ([], some .invalidWordlist)
  | some wl =>
    if opts.WordCount ≤ 0 then ([], some .invalidWordCount)
    else
      let tape := opts.RandomSource.getD defaultRandom
      match genWords wl opts.WordCount.toNat 0 tape with
      | .error e => ([], some e)
      | .ok (words, t1) =>
        if opts.EnhanceEntropy then
          match GetRandom t1 words.length with
          | (none, _) => ([], some (.enhanceCountWrap .randFailure))
          | (some k, t2) =>
            match enhanceLoop opts.Separator words 0 (k + 1) t2 with
            | .error e => ([], some e)
            | .ok (words2, _) => (List.intercalate opts.Separator words2, none)
        else (List.intercalate opts.Separator words, none)

/-- `SimpleRollWords(wordCount, separator, wl, enhanceEntropy...)`: the legacy
convenience wrapper; the variadic trailing boolean is a `List Bool`. -/
def SimpleRollWords (defaultRandom : RandTape) (wordCount : Int)
    (separator : GoStr) (wl : Option Wordlist) (enhanceEntropy : List Bool) :
    GoStr × Option DiceErr :=
  let opts : PassphraseOptions :=
    { WordCount := wordCount
      Separator := separator
      Wordlist := wl
      EnhanceEntropy := false
      RandomSource := some defaultRandom }
  let opts :=
    if enhanceEntropy.length > 0 && enhanceEntropy.headD false then
      { opts with EnhanceEntropy := true }
    else opts
  RollWords defaultRandom opts

/-- Go `strings.Split(s, sep)` for non-empty `sep`, with fuel; `s.length`
units suffice since every found occurrence strictly shortens the remainder
(`findSep_some_length`). -/
def splitGoAux (sep : GoStr) : Nat → GoStr → List GoStr
  | 0, s => [s]
  | fuel + 1, s =>
    match findSep sep s with
    | none => [s]
    | some (pre, rest) => pre :: splitGoAux sep fuel rest

/-- Go `strings.Split(s, sep)`: empty separator explodes `s` into characters,
otherwise split around each leftmost non-overlapping occurrence of `sep`. -/
def splitGo (sep s : GoStr) : List GoStr :=
  if sep = [] then s.map (fun c => [c])
  else splitGoAux sep s.length s

/-- A tape answering a fixed list of values, each ignoring the bound (used to
quantify over successful draw sequences). -/
def tapeOfDraws (vs : List Nat) : RandTape :=
  vs.map (fun v => fun _ => some v)

/-- A draw that answers `0` for every positive bound and fails on bound `0`;
it respects the `GetRandom` contract. -/
def drawZero : RandDraw :=
  fun b => if 0 < b then some 0 else none

/-- The roll-code determined by a sequence of successful draws: each drawn
value plus one (dice are 1-indexed), the first draw at the highest decimal
place value. -/
def rollCodeOfDraws (vs : List Nat) : Nat :=
  Nat.ofDigits 10 ((vs.map (· + 1)).reverse)

/-! Concrete wordlists and option values used for counterexamples and for
instantiating the theorems on explicit inputs. -/

/-- A 1-die, 6-sided wordlist mapping every code to `"ab"`. -/
def wlAB : Wordlist := ⟨fun _ => ['a', 'b'], 1, 6⟩

/-- A 1-die, 6-sided wordlist mapping every code to `"x"`. -/
def wlX : Wordlist := ⟨fun _ => ['x'], 1, 6⟩

/-- A 1-die, 6-sided wordlist mapping every code to `"aa"`. -/
def wlAA : Wordlist := ⟨fun _ => ['a', 'a'], 1, 6⟩

/-- A 1-die, 11-sided wordlist mapping every code to `"x"`. -/
def wl11 : Wordlist := ⟨fun _ => ['x'], 1, 11⟩

/-- A 2-dice, 6-sided wordlist mapping every code to `"x"`. -/
def wl26 : Wordlist := ⟨fun _ => ['x'], 2, 6⟩

/-- A 3-dice, 6-sided wordlist mapping every code to `"y"`. -/
def wl36 : Wordlist := ⟨fun _ => ['y'], 3, 6⟩

/-- A 1-die, 6-sided wordlist whose every fetch is the empty string. -/
def wlEmpty : Wordlist := ⟨fun _ => [], 1, 6⟩

/-- Options with word count 0 and a nil wordlist at the same time. -/
def optsC1 : PassphraseOptions :=
  { WordCount := 0
    Separator := []
    Wordlist := none
    EnhanceEntropy := false
    RandomSource := none }

/-- Options with a negative word count and a non-nil wordlist. -/
def optsC1w : PassphraseOptions :=
  { WordCount := -3
    Separator := ['-']
    Wordlist := some wlX
    EnhanceEntropy := true
    RandomSource := none }

/-- Options whose separator occurs inside every fetched word. -/
def optsC2 : PassphraseOptions :=
  { WordCount := 1
    Separator := ['a']
    Wordlist := some wlAA
    EnhanceEntropy := false
    RandomSource := some [drawZero] }

/-- Options with a single-character separator absent from every word. -/
def optsC2w : PassphraseOptions :=
  { WordCount := 2
    Separator := ['-']
    Wordlist := some wlX
    EnhanceEntropy := false
    RandomSource := some [drawZero, drawZero] }

/-- Options for a fully successful entropy-enhanced run. -/
def optsC4 : PassphraseOptions :=
  { WordCount := 2
    Separator := ['-']
    Wordlist := some wlAB
    EnhanceEntropy := true
    RandomSource := some (List.replicate 6 drawZero) }

/-- Options over the all-empty wordlist, so that the first word roll fails. -/
def optsC7 : PassphraseOptions :=
  { WordCount := 2
    Separator := [' ']
    Wordlist := some wlEmpty
    EnhanceEntropy := false
    RandomSource := some [drawZero] }

/-- Options for the determinism check. -/
def optsC9 : PassphraseOptions :=
  { WordCount := 3
    Separator := [':']
    Wordlist := some wlX
    EnhanceEntropy := false
    RandomSource := some [drawZero, drawZero, drawZero] }

/-! ### Basic lemmas about the random-source model -/

theorem GetRandom_some {tape : RandTape} {b v : Nat} {rest : RandTape}
    (h : GetRandom tape b = (some v, rest)) :
    ∃ f, tape = f :: rest ∧ f b = some v := by
  cases tape with
  | nil => simp [GetRandom] at h
  | cons f t =>
    simp only [GetRandom, Prod.mk.injEq] at h
    exact ⟨f, by rw [h.2], h.1⟩

theorem GetRandom_some_length {tape : RandTape} {b v : Nat} {rest : RandTape}
    (h : GetRandom tape b = (some v, rest)) : rest.length < tape.length := by
  obtain ⟨f, rfl, -⟩ := GetRandom_some h
  simp

theorem RespectsBounds.tail {f : RandDraw} {t : RandTape}
    (h : RespectsBounds (f :: t)) : RespectsBounds t :=
  fun g hg => h g (List.mem_cons_of_mem _ hg)

theorem respects_GetRandom {tape : RandTape} {b : Nat} {x : Option Nat}
    {rest : RandTape} (hresp : RespectsBounds tape)
    (h : GetRandom tape b = (x, rest)) : RespectsBounds rest := by
  cases tape with
  | nil =>
    simp only [GetRandom, Prod.mk.injEq] at h
    rw [← h.2]
    exact hresp
  | cons f t =>
    simp only [GetRandom, Prod.mk.injEq] at h
    rw [← h.2]
    exact hresp.tail

theorem respects_GetRandom_lt {tape : RandTape} {b v : Nat} {rest : RandTape}
    (hresp : RespectsBounds tape) (h : GetRandom tape b = (some v, rest)) :
    v < b := by
  obtain ⟨f, rfl, hf⟩ := GetRandom_some h
  exact hresp f (List.mem_cons_self _ _) b v hf

theorem respects_rollLoop {sides : Nat} :
    ∀ {i acc : Nat} {tape : RandTape} {x : Option Nat} {rest : RandTape},
      RespectsBounds tape → rollLoop sides i acc tape = (x, rest) →
      RespectsBounds rest := by
  intro i
  induction i with
  | zero =>
    intro acc tape x rest hresp h
    simp only [rollLoop, Prod.mk.injEq] at h
    rw [← h.2]
    exact hresp
  | succ i ih =>
    intro acc tape x rest hresp h
    rw [rollLoop] at h
    cases hg : GetRandom tape sides with
    | mk o t =>
      cases o with
      | none =>
        rw [hg] at h
        simp only [Prod.mk.injEq] at h
        rw [← h.2]
        exact respects_GetRandom hresp hg
      | some v =>
        rw [hg] at h
        exact ih (respects_GetRandom hresp hg) h

theorem rollLoop_some_length {sides : Nat} :
    ∀ {i acc : Nat} {tape : RandTape} {v : Nat} {rest : RandTape},
      rollLoop sides i acc tape = (some v, rest) →
      rest.length + i = tape.length := by
  intro i
  induction i with
  | zero =>
    intro acc tape v rest h
    simp only [rollLoop, Prod.mk.injEq] at h
    rw [h.2]
    simp
  | succ i ih =>
    intro acc tape v rest h
    rw [rollLoop] at h
    cases tape with
    | nil => simp [GetRandom] at h
    | cons f t =>
      simp only [GetRandom] at h
      cases hf : f sides with
      | none => rw [hf] at h; simp at h
      | some w =>
        rw [hf] at h
        have := ih h
        simp only [List.length_cons]
        omega

/-! ### Lemmas about `RollWord` -/

theorem RollWord_some_eq {wl : Wordlist} {tape : RandTape} {w : GoStr}
    {rest : RandTape} (h : RollWord (some wl) tape = ((w, none), rest)) :
    ∃ rv, rollLoop wl.SidesOfDice wl.Rolls 0 tape = (some rv, rest) ∧
      w = wl.FetchWord rv ∧ w ≠ [] := by
  rw [RollWord] at h
  cases hr : rollLoop wl.SidesOfDice wl.Rolls 0 tape with
  | mk o t =>
    cases o with
    | none => rw [hr] at h; simp at h
    | some rv =>
      rw [hr] at h
      dsimp only at h
      by_cases hlen : (wl.FetchWord rv).length = 0
      · rw [if_pos hlen] at h
        simp at h
      · rw [if_neg hlen] at h
        simp only [Prod.mk.injEq] at h
        refine ⟨rv, ?_, ?_, ?_⟩
        · rw [h.2]
        · exact h.1.1.symm
        · rw [← h.1.1]
          intro hnil
          exact hlen (by simp [hnil])

theorem RollWord_some_length {wl : Wordlist} {tape : RandTape} {w : GoStr}
    {rest : RandTape} (h : RollWord (some wl) tape = ((w, none), rest)) :
    rest.length + wl.Rolls = tape.length := by
  obtain ⟨rv, hr, -, -⟩ := RollWord_some_eq h
  exact rollLoop_some_length hr

theorem respects_RollWord {wl : Wordlist} {tape : RandTape}
    {r : GoStr × Option DiceErr} {rest : RandTape}
    (hresp : RespectsBounds tape) (h : RollWord (some wl) tape = (r, rest)) :
    RespectsBounds rest := by
  rw [RollWord] at h
  cases hr : rollLoop wl.SidesOfDice wl.Rolls 0 tape with
  | mk o t =>
    have hres : RespectsBounds t := respects_rollLoop hresp hr
    cases o with
    | none =>
      rw [hr] at h
      simp only [Prod.mk.injEq] at h
      rw [← h.2]
      exact hres
    | some rv =>
      rw [hr] at h
      dsimp only at h
      by_cases hlen : (wl.FetchWord rv).length = 0
      · rw [if_pos hlen] at h
        simp only [Prod.mk.injEq] at h
        rw [← h.2]
        exact hres
      · rw [if_neg hlen] at h
        simp only [Prod.mk.injEq] at h
        rw [← h.2]
        exact hres

/-! ### The extra-entropy table produces single characters -/

theorem lookup_mem_snd {α β : Type} [BEq α] :
    ∀ (l : List (α × β)) (k : α) (w : β), List.lookup k l = some w →
      w ∈ l.map Prod.snd := by
  intro l
  induction l with
  | nil => intro k w h; simp [List.lookup] at h
  | cons p t ih =>
    intro k w h
    obtain ⟨a, b⟩ := p
    rw [List.lookup] at h
    cases hk : (k == a) with
    | true =>
      simp only [hk, Option.some.injEq] at h
      simp [h]
    | false =>
      simp only [hk] at h
      simp only [List.map_cons, List.mem_cons]
      exact Or.inr (ih k w h)

theorem eq_singleton_of_length_one {w : GoStr} (h : w.length = 1) :
    w = [w.headD ' '] := by
  cases w with
  | nil => simp at h
  | cons c t =>
    cases t with
    | nil => rfl
    | cons d t' =>
      exfalso
      simp only [List.length_cons] at h
      omega

theorem extraEntropyTable_snd_singleton :
    ∀ w ∈ extraEntropyTable.map Prod.snd,
      w.length = 1 ∧ w.headD ' ' ∈ extraEntropyChars := by
  decide

theorem ExtraEntropy_fetch_singleton {rv : Nat}
    (h : ExtraEntropy.FetchWord rv ≠ []) :
    ∃ c, ExtraEntropy.FetchWord rv = [c] ∧ c ∈ extraEntropyChars := by
  unfold ExtraEntropy at h ⊢
  dsimp only at h ⊢
  cases hl : extraEntropyTable.lookup rv with
  | none => simp [hl] at h
  | some w =>
    simp only [Option.getD_some] at h ⊢
    obtain ⟨h1, h2⟩ := extraEntropyTable_snd_singleton w (lookup_mem_snd _ _ _ hl)
    exact ⟨w.headD ' ', eq_singleton_of_length_one h1, h2⟩

theorem RollWord_ExtraEntropy_singleton {tape : RandTape} {enh : GoStr}
    {rest : RandTape} (h : RollWord (some ExtraEntropy) tape = ((enh, none), rest)) :
    ∃ c, enh = [c] ∧ c ∈ extraEntropyChars := by
  obtain ⟨rv, -, hw, hne⟩ := RollWord_some_eq h
  rw [hw] at hne ⊢
  exact ExtraEntropy_fetch_singleton hne

/-! ### `strings.Contains` on single-character substrings -/

theorem findSep_singleton_isSome {c : Char} :
    ∀ s : GoStr, (findSep [c] s).isSome = true ↔ c ∈ s := by
  intro s
  induction s with
  | nil => simp [findSep, List.isPrefixOf]
  | cons d t ih =>
    rw [findSep]
    by_cases hcd : c = d
    · subst hcd
      simp [List.isPrefixOf]
    · have hpre : [c].isPrefixOf (d :: t) = false := by
        simp [List.isPrefixOf, hcd]
      rw [hpre]
      simp only [Bool.false_eq_true, if_false, Option.isSome_map']
      rw [ih]
      simp [hcd]

theorem containsGo_singleton {s : GoStr} {c : Char} :
    containsGo s [c] = true ↔ c ∈ s := by
  rw [containsGo, findSep_singleton_isSome]

/-! ### `List.getD` after `List.set` -/

theorem getD_set_ne {α : Type} {l : List α} {i j : Nat} {x d : α}
    (h : i ≠ j) : (l.set i x).getD j d = l.getD j d := by
  simp only [List.getD_eq_getElem?_getD]
  rw [List.getElem?_set_ne h]

theorem getD_set_self {α : Type} {l : List α} {i : Nat} {x d : α}
    (h : i < l.length) : (l.set i x).getD i d = x := by
  simp only [List.getD_eq_getElem?_getD]
  rw [List.getElem?_set_self (by simpa using h)]
  simp

/-! ### The roll-code arithmetic of `RollWord` -/

theorem rollLoop_tapeOfDraws (sides : Nat) :
    ∀ (vs : List Nat) (acc : Nat) (rest : RandTape),
      rollLoop sides vs.length acc (tapeOfDraws vs ++ rest) =
        (some (acc + Nat.ofDigits 10 ((vs.map (· + 1)).reverse)), rest) := by
  intro vs
  induction vs with
  | nil =>
    intro acc rest
    simp [rollLoop, tapeOfDraws]
  | cons v vs ih =>
    intro acc rest
    rw [List.length_cons, rollLoop]
    have hstep :
        GetRandom (tapeOfDraws (v :: vs) ++ rest) sides =
          (some v, tapeOfDraws vs ++ rest) := by
      simp [tapeOfDraws, GetRandom]
    rw [hstep]
    dsimp only
    rw [ih]
    have harith : acc + 10 ^ vs.length * (v + 1) +
          Nat.ofDigits 10 ((vs.map (· + 1)).reverse) =
        acc + Nat.ofDigits 10 (((v :: vs).map (· + 1)).reverse) := by
      rw [List.map_cons, List.reverse_cons, Nat.ofDigits_append]
      simp only [List.length_reverse, List.length_map, Nat.ofDigits_singleton]
      ring
    rw [harith]

theorem ofDigits_reverse_succ_eq_sum :
    ∀ vs : List Nat,
      Nat.ofDigits 10 ((vs.map (· + 1)).reverse) =
        ∑ j ∈ Finset.range vs.length, 10 ^ (vs.length - 1 - j) * (vs.getD j 0 + 1) := by
  intro vs
  induction vs with
  | nil => simp
  | cons v vs ih =>
    rw [List.map_cons, List.reverse_cons, Nat.ofDigits_append, ih]
    simp only [List.length_reverse, List.length_map, Nat.ofDigits_singleton,
      List.length_cons]
    rw [Finset.sum_range_succ']
    have hsum :
        (∑ j ∈ Finset.range vs.length,
            10 ^ (vs.length + 1 - 1 - (j + 1)) * ((v :: vs).getD (j + 1) 0 + 1)) =
          ∑ j ∈ Finset.range vs.length,
            10 ^ (vs.length - 1 - j) * (vs.getD j 0 + 1) := by
      refine Finset.sum_congr rfl fun j hj => ?_
      rw [List.getD_cons_succ]
      congr 2
      omega
    rw [hsum, List.getD_cons_zero]
    have hexp : vs.length + 1 - 1 - 0 = vs.length := by omega
    rw [hexp]

/-! ### Lemmas about the word-generation loop -/

theorem genWords_length {wl : Wordlist} :
    ∀ {r idx : Nat} {tape : RandTape} {ws : List GoStr} {t : RandTape},
      genWords wl r idx tape = .ok (ws, t) → ws.length = r := by
  intro r
  induction r with
  | zero =>
    intro idx tape ws t h
    simp only [genWords, Except.ok.injEq, Prod.mk.injEq] at h
    rw [← h.1]
    rfl
  | succ r ih =>
    intro idx tape ws t h
    rw [genWords] at h
    cases hr : RollWord (some wl) tape with
    | mk p rest =>
      obtain ⟨w0, e0⟩ := p
      cases e0 with
      | some e => rw [hr] at h; simp at h
      | none =>
        rw [hr] at h
        dsimp only at h
        cases hg : genWords wl r (idx + 1) rest with
        | error e => rw [hg] at h; simp at h
        | ok p2 =>
          obtain ⟨ws2, t2⟩ := p2
          rw [hg] at h
          simp only [Except.ok.injEq, Prod.mk.injEq] at h
          rw [← h.1, List.length_cons, ih hg]

theorem genWords_mem {wl : Wordlist} :
    ∀ {r idx : Nat} {tape : RandTape} {ws : List GoStr} {t : RandTape},
      genWords wl r idx tape = .ok (ws, t) →
      ∀ w ∈ ws, w ≠ [] ∧ ∃ rv, w = wl.FetchWord rv := by
  intro r
  induction r with
  | zero =>
    intro idx tape ws t h
    simp only [genWords, Except.ok.injEq, Prod.mk.injEq] at h
    rw [← h.1]
    intro w hw
    simp at hw
  | succ r ih =>
    intro idx tape ws t h
    rw [genWords] at h
    cases hr : RollWord (some wl) tape with
    | mk p rest =>
      obtain ⟨w0, e0⟩ := p
      cases e0 with
      | some e => rw [hr] at h; simp at h
      | none =>
        rw [hr] at h
        dsimp only at h
        cases hg : genWords wl r (idx + 1) rest with
        | error e => rw [hg] at h; simp at h
        | ok p2 =>
          obtain ⟨ws2, t2⟩ := p2
          rw [hg] at h
          simp only [Except.ok.injEq, Prod.mk.injEq] at h
          rw [← h.1]
          intro w hw
          rcases List.mem_cons.mp hw with hw0 | hwtail
          · subst hw0
            obtain ⟨rv, -, hfw, hne⟩ := RollWord_some_eq hr
            exact ⟨hne, rv, hfw⟩
          · exact ih hg w hwtail

theorem genWords_prefix_error {wl : Wordlist} :
    ∀ {i : Nat} {idx : Nat} {tape : RandTape} {ws : List GoStr} {t : RandTape}
      {w : GoStr} {e : DiceErr} {t2 : RandTape} {r : Nat},
      genWords wl i idx tape = .ok (ws, t) →
      RollWord (some wl) t = ((w, some e), t2) →
      i < r →
      genWords wl r idx tape = .error (.wordWrap (idx + i + 1) e) := by
  intro i
  induction i with
  | zero =>
    intro idx tape ws t w e t2 r hok hfail hlt
    simp only [genWords, Except.ok.injEq, Prod.mk.injEq] at hok
    obtain ⟨r', rfl⟩ : ∃ r', r = r' + 1 := ⟨r - 1, by omega⟩
    have ht : t = tape := hok.2.symm
    subst ht
    rw [genWords, hfail]
  | succ i ih =>
    intro idx tape ws t w e t2 r hok hfail hlt
    rw [genWords] at hok
    cases hr : RollWord (some wl) tape with
    | mk p rest =>
      obtain ⟨w0, e0⟩ := p
      cases e0 with
      | some e0 => rw [hr] at hok; simp at hok
      | none =>
        rw [hr] at hok
        dsimp only at hok
        cases hg : genWords wl i (idx + 1) rest with
        | error e0 => rw [hg] at hok; simp at hok
        | ok p2 =>
          obtain ⟨ws2, t3⟩ := p2
          rw [hg] at hok
          simp only [Except.ok.injEq, Prod.mk.injEq] at hok
          obtain ⟨r', rfl⟩ : ∃ r', r = r' + 1 := ⟨r - 1, by omega⟩
          rw [genWords, hr]
          dsimp only
          have ht3 : t3 = t := by rw [hok.2]
          subst ht3
          rw [ih hg hfail (by omega)]
          have harith : idx + 1 + i + 1 = idx + (i + 1) + 1 := by omega
          rw [harith]

/-! ### Lemmas about `findSep` and `splitGo` -/

theorem findSep_some_length {sep : GoStr} (hsep : sep ≠ []) :
    ∀ {s p r : GoStr}, findSep sep s = some (p, r) → r.length < s.length := by
  intro s
  induction s with
  | nil =>
    intro p r h
    obtain ⟨c, cs, rfl⟩ : ∃ c cs, sep = c :: cs := by
      cases sep with
      | nil => exact absurd rfl hsep
      | cons c cs => exact ⟨c, cs, rfl⟩
    simp [findSep, List.isPrefixOf] at h
  | cons c s' ih =>
    intro p r h
    rw [findSep] at h
    by_cases hpre : sep.isPrefixOf (c :: s') = true
    · rw [if_pos hpre] at h
      simp only [Option.some.injEq, Prod.mk.injEq] at h
      rw [← h.2]
      have hlen : 1 ≤ sep.length := by
        cases sep with
        | nil => exact absurd rfl hsep
        | cons d ds => simp
      simp only [List.length_drop, List.length_cons]
      omega
    · rw [if_neg hpre] at h
      obtain ⟨⟨p', r'⟩, hpr, heq⟩ := Option.map_eq_some'.mp h
      have hr : r' = r := by simpa using congrArg Prod.snd heq
      subst hr
      have := ih hpr
      simp only [List.length_cons]
      omega

theorem findSep_not_mem {c : Char} {w : GoStr} (h : c ∉ w) :
    findSep [c] w = none := by
  have := findSep_singleton_isSome (c := c) w
  cases hf : findSep [c] w with
  | none => rfl
  | some pr =>
    exfalso
    exact h (this.mp (by rw [hf]; rfl))

theorem findSep_boundary {c : Char} :
    ∀ {w : GoStr}, c ∉ w → ∀ r : GoStr, findSep [c] (w ++ c :: r) = some (w, r) := by
  intro w
  induction w with
  | nil =>
    intro _ r
    rw [List.nil_append, findSep]
    have hpre : [c].isPrefixOf (c :: r) = true := by
      simp [List.isPrefixOf]
    rw [if_pos hpre]
    rfl
  | cons d w' ih =>
    intro hmem r
    have hcd : c ≠ d := fun hc => hmem (by rw [hc]; exact List.mem_cons_self _ _)
    have hw' : c ∉ w' := fun hc => hmem (List.mem_cons_of_mem _ hc)
    rw [List.cons_append, findSep]
    have hpre : [c].isPrefixOf (d :: (w' ++ c :: r)) = false := by
      simp [List.isPrefixOf, hcd]
    rw [hpre]
    simp only [Bool.false_eq_true, if_false, ih hw' r, Option.map_some']

theorem intercalate_one {sep : GoStr} (a : GoStr) :
    List.intercalate sep [a] = a := by
  simp [List.intercalate, List.intersperse_singleton]

theorem intercalate_two_or_more {sep : GoStr} (a b : GoStr) (l : List GoStr) :
    List.intercalate sep (a :: b :: l) = a ++ sep ++ List.intercalate sep (b :: l) := by
  simp [List.intercalate, List.intersperse_cons_cons, List.append_assoc]

theorem splitGoAux_intercalate {c : Char} :
    ∀ (ws : List GoStr), ws ≠ [] → (∀ w ∈ ws, c ∉ w) →
      ∀ fuel, (List.intercalate [c] ws).length ≤ fuel →
        splitGoAux [c] fuel (List.intercalate [c] ws) = ws := by
  intro ws
  induction ws with
  | nil => intro h; exact absurd rfl h
  | cons w ws ih =>
    intro _ hmem fuel hfuel
    cases ws with
    | nil =>
      rw [intercalate_one] at hfuel ⊢
      have hnone : findSep [c] w = none :=
        findSep_not_mem (hmem w (List.mem_cons_self _ _))
      cases fuel with
      | zero => rfl
      | succ fuel => rw [splitGoAux, hnone]
    | cons w2 ws' =>
      rw [intercalate_two_or_more] at hfuel ⊢
      have hfound :
          findSep [c] (w ++ [c] ++ List.intercalate [c] (w2 :: ws')) =
            some (w, List.intercalate [c] (w2 :: ws')) := by
        rw [List.append_assoc, List.singleton_append]
        exact findSep_boundary (hmem w (List.mem_cons_self _ _)) _
      have hlen : 1 ≤ fuel := by
        simp only [List.length_append, List.length_cons] at hfuel
        omega
      obtain ⟨fuel', rfl⟩ : ∃ f, fuel = f + 1 := ⟨fuel - 1, by omega⟩
      rw [splitGoAux, hfound]
      dsimp only
      rw [ih (by simp) (fun u hu => hmem u (List.mem_cons_of_mem _ hu)) fuel'
        (by simp only [List.length_append, List.length_cons] at hfuel; omega)]

/-! ### Step lemmas for the entropy-enhancement loop -/

theorem enhanceLoopF_done {sep : GoStr} {fuel : Nat} {words : List GoStr}
    {i m : Nat} {tape : RandTape} (h : ¬ i < m) :
    enhanceLoopF sep fuel words i m tape = .ok (words, tape) := by
  rw [enhanceLoopF.eq_def]
  dsimp only
  rw [if_neg h]

theorem enhanceLoopF_zero {sep : GoStr} {words : List GoStr} {i m : Nat}
    {tape : RandTape} (h : i < m) :
    enhanceLoopF sep 0 words i m tape =
      .error (.enhancerWrap (.randWrap .randFailure)) := by
  rw [enhanceLoopF.eq_def]
  dsimp only
  rw [if_pos h]

theorem enhanceLoopF_roll_error {sep : GoStr} {fuel : Nat} {words : List GoStr}
    {i m : Nat} {tape : RandTape} {w : GoStr} {e : DiceErr} {t : RandTape}
    (h : i < m) (hr : RollWord (some ExtraEntropy) tape = ((w, some e), t)) :
    enhanceLoopF sep (fuel + 1) words i m tape = .error (.enhancerWrap e) := by
  rw [enhanceLoopF.eq_def]
  dsimp only
  rw [if_pos h]
  rw [hr]

theorem enhanceLoopF_continue {sep : GoStr} {fuel : Nat} {words : List GoStr}
    {i m : Nat} {tape : RandTape} {enh : GoStr} {t1 : RandTape}
    (h : i < m) (hr : RollWord (some ExtraEntropy) tape = ((enh, none), t1))
    (hc : containsGo sep enh = true) :
    enhanceLoopF sep (fuel + 1) words i m tape =
      enhanceLoopF sep fuel words i m t1 := by
  rw [enhanceLoopF.eq_def]
  dsimp only
  rw [if_pos h]
  rw [hr]
  dsimp only
  rw [if_pos hc]

theorem enhanceLoopF_pos_error {sep : GoStr} {fuel : Nat} {words : List GoStr}
    {i m : Nat} {tape : RandTape} {enh : GoStr} {t1 : RandTape} {t' : RandTape}
    (h : i < m) (hr : RollWord (some ExtraEntropy) tape = ((enh, none), t1))
    (hc : containsGo sep enh = false)
    (hg : GetRandom t1 (words.getD i []).length = (none, t')) :
    enhanceLoopF sep (fuel + 1) words i m tape = .error (.posWrap .randFailure) := by
  rw [enhanceLoopF.eq_def]
  dsimp only
  rw [if_pos h]
  rw [hr]
  dsimp only
  rw [hc]
  simp only [Bool.false_eq_true, if_false]
  rw [hg]

theorem enhanceLoopF_advance {sep : GoStr} {fuel : Nat} {words : List GoStr}
    {i m : Nat} {tape : RandTape} {enh : GoStr} {t1 : RandTape} {pos : Nat}
    {t2 : RandTape}
    (h : i < m) (hr : RollWord (some ExtraEntropy) tape = ((enh, none), t1))
    (hc : containsGo sep enh = false)
    (hg : GetRandom t1 (words.getD i []).length = (some pos, t2)) :
    enhanceLoopF sep (fuel + 1) words i m tape =
      enhanceLoopF sep fuel
        (words.set i ((words.getD i []).take (pos + 1) ++ enh ++
          (words.getD i []).drop (pos + 1)))
        (i + 1) m t2 := by
  rw [enhanceLoopF.eq_def]
  dsimp only
  rw [if_pos h]
  rw [hr]
  dsimp only
  rw [hc]
  simp only [Bool.false_eq_true, if_false]
  rw [hg]

/-- The result of the fueled entropy-enhancement loop does not depend on the
fuel, as long as the fuel exceeds the tape length (each iteration strictly
consumes the tape, by at least the two dice of `ExtraEntropy`). -/
theorem enhanceLoopF_fuel_congr {sep : GoStr} :
    ∀ (f1 : Nat) {f2 : Nat} {words : List GoStr} {i m : Nat} {tape : RandTape},
      tape.length < f1 → tape.length < f2 →
      enhanceLoopF sep f1 words i m tape = enhanceLoopF sep f2 words i m tape := by
  intro f1
  induction f1 with
  | zero => intro f2 words i m tape h1 h2; omega
  | succ g1 ih =>
    intro f2 words i m tape h1 h2
    obtain ⟨g2, rfl⟩ : ∃ g2, f2 = g2 + 1 := ⟨f2 - 1, by omega⟩
    by_cases hi : i < m
    · cases hr : RollWord (some ExtraEntropy) tape with
      | mk p t1 =>
        obtain ⟨enh, e0⟩ := p
        cases e0 with
        | some e =>
          rw [enhanceLoopF_roll_error hi hr, enhanceLoopF_roll_error hi hr]
        | none =>
          have ht1 : t1.length + 2 = tape.length := RollWord_some_length hr
          cases hc : containsGo sep enh with
          | true =>
            rw [enhanceLoopF_continue hi hr hc, enhanceLoopF_continue hi hr hc]
            exact ih (by omega) (by omega)
          | false =>
            cases hg : GetRandom t1 (words.getD i []).length with
            | mk o t2 =>
              cases o with
              | none =>
                rw [enhanceLoopF_pos_error hi hr hc hg,
                  enhanceLoopF_pos_error hi hr hc hg]
              | some pos =>
                have ht2 : t2.length < t1.length := GetRandom_some_length hg
                rw [enhanceLoopF_advance hi hr hc hg,
                  enhanceLoopF_advance hi hr hc hg]
                exact ih (by omega) (by omega)
    · rw [enhanceLoopF_done hi, enhanceLoopF_done hi]

/-- Master specification of a successful entropy-enhancement run: the word
list keeps its length, every word outside `[i, m)` is returned untouched,
and every word inside `[i, m)` is the original word with exactly one
character — taken from the extra-entropy table and not contained in the
separator — inserted immediately after a uniformly drawn position `p` below
the word's length. -/
theorem enhanceLoopF_spec {sep : GoStr} :
    ∀ (fuel : Nat) {words : List GoStr} {i m : Nat} {tape : RandTape}
      {words2 : List GoStr} {t' : RandTape},
      RespectsBounds tape →
      enhanceLoopF sep fuel words i m tape = .ok (words2, t') →
      words2.length = words.length ∧
      (∀ j, j < i ∨ m ≤ j → words2.getD j [] = words.getD j []) ∧
      (∀ j, i ≤ j → j < m → ∃ p c,
        p < (words.getD j []).length ∧
        c ∈ extraEntropyChars ∧
        containsGo sep [c] = false ∧
        words2.getD j [] =
          (words.getD j []).take (p + 1) ++ c :: (words.getD j []).drop (p + 1)) := by
  intro fuel
  induction fuel with
  | zero =>
    intro words i m tape words2 t' hresp h
    by_cases hi : i < m
    · rw [enhanceLoopF_zero hi] at h
      exact absurd h (by simp)
    · rw [enhanceLoopF_done hi] at h
      simp only [Except.ok.injEq, Prod.mk.injEq] at h
      refine ⟨by rw [h.1], fun j _ => by rw [h.1], fun j hij hjm => ?_⟩
      omega
  | succ fuel ih =>
    intro words i m tape words2 t' hresp h
    by_cases hi : i < m
    · cases hr : RollWord (some ExtraEntropy) tape with
      | mk p t1 =>
        obtain ⟨enh, e0⟩ := p
        cases e0 with
        | some e =>
          rw [enhanceLoopF_roll_error hi hr] at h
          exact absurd h (by simp)
        | none =>
          have hresp1 : RespectsBounds t1 := respects_RollWord hresp hr
          cases hc : containsGo sep enh with
          | true =>
            rw [enhanceLoopF_continue hi hr hc] at h
            exact ih hresp1 h
          | false =>
            cases hg : GetRandom t1 (words.getD i []).length with
            | mk o t2 =>
              cases o with
              | none =>
                rw [enhanceLoopF_pos_error hi hr hc hg] at h
                exact absurd h (by simp)
              | some pos =>
                have hresp2 : RespectsBounds t2 := respects_GetRandom hresp1 hg
                have hpos : pos < (words.getD i []).length :=
                  respects_GetRandom_lt hresp1 hg
                have hiw : i < words.length := by
                  by_contra hge
                  have : words.getD i [] = [] := by
                    rw [List.getD_eq_getElem?_getD, List.getElem?_eq_none (by omega)]
                    rfl
                  rw [this] at hpos
                  simp at hpos
                obtain ⟨c, rfl, hcmem⟩ := RollWord_ExtraEntropy_singleton hr
                rw [enhanceLoopF_advance hi hr hc hg] at h
                obtain ⟨hlen2, hframe, henh⟩ := ih hresp2 h
                have hset_len :
                    (words.set i ((words.getD i []).take (pos + 1) ++ [c] ++
                      (words.getD i []).drop (pos + 1))).length = words.length :=
                  List.length_set ..
                refine ⟨by rw [hlen2, hset_len], ?_, ?_⟩
                · intro j hj
                  have hji : j ≠ i := by omega
                  have := hframe j (by omega)
                  rw [this, getD_set_ne (fun he => hji he.symm)]
                · intro j hij hjm
                  by_cases hji : j = i
                  · subst hji
                    refine ⟨pos, c, hpos, hcmem, hc, ?_⟩
                    have := hframe j (by omega)
                    rw [this, getD_set_self hiw]
                    simp [List.append_assoc]
                  · obtain ⟨p', c', hp', hc'mem, hc'sep, heq⟩ :=
                      henh j (by omega) hjm
                    refine ⟨p', c', ?_, hc'mem, hc'sep, ?_⟩
                    · rw [getD_set_ne (fun he => hji he.symm)] at hp'
                      exact hp'
                    · rw [getD_set_ne (fun he => hji he.symm)] at heq
                      exact heq
    · rw [enhanceLoopF_done hi] at h
      simp only [Except.ok.injEq, Prod.mk.injEq] at h
      refine ⟨by rw [h.1], fun j _ => by rw [h.1], fun j hij hjm => ?_⟩
      omega

theorem respects_replicate_drawZero (n : Nat) :
    RespectsBounds (List.replicate n drawZero) := by
  intro f hf b v hv
  have hfz : f = drawZero := List.eq_of_mem_replicate hf
  subst hfz
  unfold drawZero at hv
  by_cases hb : 0 < b
  · rw [if_pos hb] at hv
    simp only [Option.some.injEq] at hv
    omega
  · rw [if_neg hb] at hv
    simp at hv

/-! ## The claims -/

/-- C1 (counterexample): with `WordCount = 0` and a nil `Wordlist` at the same
time, `RollWords` fails with `InvalidWordlist`, not `InvalidWordCount` — the
nil-wordlist check runs first, so the claim "InvalidWordCount regardless of
all other fields, in particular also when the wordlist is nil" is false. -/
theorem RollWords_zero_count_nil_wordlist_cex :
    RollWords [] optsC1 = ([], some DiceErr.invalidWordlist) ∧
      DiceErr.invalidWordlist ≠ DiceErr.invalidWordCount :=
  ⟨rfl, by decide⟩

/-- C1 (amended): for every options value whose `WordCount` is zero or
negative and whose `Wordlist` is non-nil, `RollWords` fails with
`InvalidWordCount`, regardless of the values of all other option fields. -/
theorem RollWords_invalidWordCount (defaultRandom : RandTape)
    (opts : PassphraseOptions) (wl : Wordlist)
    (hwl : opts.Wordlist = some wl) (hwc : opts.WordCount ≤ 0) :
    RollWords defaultRandom opts = ([], some DiceErr.invalidWordCount) := by
  rw [RollWords.eq_def, hwl]
  dsimp only
  rw [if_pos hwc]

/-- C1 (witness): the amended theorem applied to a concrete options value
with a negative word count and a non-nil wordlist. -/
theorem RollWords_invalidWordCount_witness :
    RollWords [] optsC1w = ([], some DiceErr.invalidWordCount) :=
  RollWords_invalidWordCount [] optsC1w wlX rfl (by decide)

/-- C8: for every input, `RollWords` (and therefore `SimpleRollWords`)
returns either a passphrase with no error or the empty string together with
an error; it never returns both a non-empty string and an error, and no
partially built passphrase escapes on any failure path. -/
theorem RollWords_no_partial_output :
    (∀ (defaultRandom : RandTape) (opts : PassphraseOptions),
      (RollWords defaultRandom opts).2 = none ∨
        (RollWords defaultRandom opts).1 = []) ∧
    (∀ (defaultRandom : RandTape) (wordCount : Int) (separator : GoStr)
        (wl : Option Wordlist) (enhanceEntropy : List Bool),
      (SimpleRollWords defaultRandom wordCount separator wl enhanceEntropy).2 = none ∨
        (SimpleRollWords defaultRandom wordCount separator wl enhanceEntropy).1 = []) := by
  have hmain : ∀ (defaultRandom : RandTape) (opts : PassphraseOptions),
      (RollWords defaultRandom opts).2 = none ∨
        (RollWords defaultRandom opts).1 = [] := by
    intro d opts
    rw [RollWords.eq_def]
    cases opts.Wordlist with
    | none => exact Or.inr rfl
    | some wl =>
      dsimp only
      by_cases hwc : opts.WordCount ≤ 0
      · rw [if_pos hwc]
        exact Or.inr rfl
      · rw [if_neg hwc]
        cases genWords wl opts.WordCount.toNat 0 (opts.RandomSource.getD d) with
        | error e => exact Or.inr rfl
        | ok p =>
          obtain ⟨words, t1⟩ := p
          simp only
          cases opts.EnhanceEntropy with
          | false => exact Or.inl rfl
          | true =>
            simp only
            cases GetRandom t1 words.length with
            | mk o t2 =>
              cases o with
              | none => exact Or.inr rfl
              | some k =>
                simp only
                cases enhanceLoop opts.Separator words 0 (k + 1) t2 with
                | error e => exact Or.inr rfl
                | ok p2 => exact Or.inl rfl
  refine ⟨hmain, fun d wc sep wl ee => ?_⟩
  rw [SimpleRollWords]
  exact hmain d _

/-- C9: `RollWords` is deterministic in its inputs — with the same option
fields and random sources answering the same sequence of bounded draws, two
invocations return byte-identical strings and identical errors. -/
theorem RollWords_deterministic (d1 d2 : RandTape)
    (o1 o2 : PassphraseOptions) (hd : d1 = d2) (ho : o1 = o2) :
    RollWords d1 o1 = RollWords d2 o2 := by
  rw [hd, ho]

/-- C9 (witness): two runs on the concrete options value agree. -/
theorem RollWords_deterministic_witness :
    RollWords [] optsC9 = RollWords [] optsC9 :=
  RollWords_deterministic [] [] optsC9 optsC9 rfl rfl

/-- C2 (counterexample): nothing stops the separator from occurring inside a
word — with the wordlist mapping every code to `"aa"` and separator `"a"`,
`RollWords` succeeds with the 1-word passphrase `"aa"`, which splits into 3
segments (all empty), not 1 non-empty segment. -/
theorem RollWords_split_cex :
    RollWords [] optsC2 = (['a', 'a'], none) ∧
      (splitGo ['a'] ['a', 'a']).length ≠ 1 ∧
      ¬ (∀ seg ∈ splitGo ['a'] ['a', 'a'], seg ≠ ([] : GoStr)) :=
  ⟨rfl, by decide, by decide⟩

/-- C2 (amended): for every options value with WordCount ≥ 1, a non-nil
wordlist, EnhanceEntropy false, and a single-character separator that does
not occur in any word the wordlist can return, whenever RollWords returns
without error, splitting the passphrase on the separator yields exactly
WordCount segments, each non-empty. -/
theorem RollWords_split_count (defaultRandom : RandTape)
    (opts : PassphraseOptions) (wl : Wordlist) (c : Char) (s : GoStr)
    (hwl : opts.Wordlist = some wl) (hsep : opts.Separator = [c])
    (hee : opts.EnhanceEntropy = false) (hwc : 1 ≤ opts.WordCount)
    (hc : ∀ rv, c ∉ wl.FetchWord rv)
    (hrun : RollWords defaultRandom opts = (s, none)) :
    (splitGo opts.Separator s).length = opts.WordCount.toNat ∧
      ∀ seg ∈ splitGo opts.Separator s, seg ≠ [] := by
  rw [RollWords.eq_def, hwl] at hrun
  simp only at hrun
  rw [if_neg (by omega)] at hrun
  cases hg : genWords wl opts.WordCount.toNat 0 (opts.RandomSource.getD defaultRandom) with
  | error e => rw [hg] at hrun; simp at hrun
  | ok p =>
    obtain ⟨words, t1⟩ := p
    rw [hg] at hrun
    simp only at hrun
    rw [hee] at hrun
    simp only [Bool.false_eq_true, if_false] at hrun
    have hs : s = List.intercalate opts.Separator words := by
      have := congrArg Prod.fst hrun
      simpa using this.symm
    subst hs
    have hlen : words.length = opts.WordCount.toNat := genWords_length hg
    have hnonempty : words ≠ [] := by
      intro hnil
      rw [hnil] at hlen
      simp at hlen
      omega
    have hmem : ∀ w ∈ words, c ∉ w := by
      intro w hw
      obtain ⟨-, rv, hfw⟩ := genWords_mem hg w hw
      rw [hfw]
      exact hc rv
    rw [hsep]
    rw [splitGo, if_neg (by simp)]
    rw [splitGoAux_intercalate words hnonempty hmem _ le_rfl]
    exact ⟨hlen, fun seg hseg => (genWords_mem hg seg hseg).1⟩

/-- C2 (witness): the amended theorem on a successful 2-word run with
separator `"-"` and all words `"x"`. -/
theorem RollWords_split_count_witness :
    (splitGo optsC2w.Separator ['x', '-', 'x']).length = optsC2w.WordCount.toNat ∧
      ∀ seg ∈ splitGo optsC2w.Separator ['x', '-', 'x'], seg ≠ [] :=
  RollWords_split_count [] optsC2w wlX '-' ['x', '-', 'x'] rfl rfl rfl
    (by decide) (fun rv => by simp [wlX]) rfl

/-- Running `RollWord` on a tape that answers the draws `vs` (then continues
as `rest`): the accumulated roll-code is `rollCodeOfDraws vs`, and that code
is what is passed to `FetchWord`. -/
theorem RollWord_tapeOfDraws (wl : Wordlist) (vs : List Nat) (rest : RandTape)
    (hlen : vs.length = wl.Rolls) :
    rollLoop wl.SidesOfDice wl.Rolls 0 (tapeOfDraws vs ++ rest) =
      (some (rollCodeOfDraws vs), rest) ∧
    RollWord (some wl) (tapeOfDraws vs ++ rest) =
      (if (wl.FetchWord (rollCodeOfDraws vs)).length = 0 then
        (([], some (.invalidWordFetched (rollCodeOfDraws vs))), rest)
       else ((wl.FetchWord (rollCodeOfDraws vs), none), rest)) := by
  have h1 : rollLoop wl.SidesOfDice wl.Rolls 0 (tapeOfDraws vs ++ rest) =
      (some (rollCodeOfDraws vs), rest) := by
    rw [← hlen]
    simpa [rollCodeOfDraws] using rollLoop_tapeOfDraws wl.SidesOfDice vs 0 rest
  refine ⟨h1, ?_⟩
  rw [RollWord.eq_def]
  simp only
  rw [h1]

/-- C3 (counterexample): for `rollsRequired = 1` and `diceSides = 11`, the
successful draw 10 produces roll-code 11 — passed to `FetchWord` — whose
decimal representation has 2 digits, not `rollsRequired = 1` digits; so the
claim fails for wordlists with `diceSides ≥ 1` in general. -/
theorem RollWord_rollcode_digits_cex :
    RollWord (some wl11) [fun _ => some 10] = ((['x'], none), []) ∧
    rollLoop wl11.SidesOfDice wl11.Rolls 0 [fun _ => some 10] = (some 11, []) ∧
    (Nat.digits 10 11).length ≠ wl11.Rolls := by
  have h11 : Nat.digits 10 11 = [1, 1] := by norm_num
  refine ⟨rfl, rfl, ?_⟩
  rw [h11]
  decide

/-- C3 (amended): for every wordlist with `rollsRequired ≥ 1` and
`1 ≤ diceSides ≤ 9`, and every successful sequence of in-range draws, the
roll-code that `RollWord` passes to `FetchWord` is an integer whose decimal
representation is the concatenation of exactly `rollsRequired` digits, each
in `[1, diceSides]`, with the first roll as the most-significant digit. -/
theorem RollWord_rollcode_digits (wl : Wordlist) (vs : List Nat) (rest : RandTape)
    (hlen : vs.length = wl.Rolls) (hr1 : 1 ≤ wl.Rolls)
    (hs1 : 1 ≤ wl.SidesOfDice) (hs9 : wl.SidesOfDice ≤ 9)
    (hvs : ∀ v ∈ vs, v < wl.SidesOfDice) :
    RollWord (some wl) (tapeOfDraws vs ++ rest) =
      (if (wl.FetchWord (rollCodeOfDraws vs)).length = 0 then
        (([], some (.invalidWordFetched (rollCodeOfDraws vs))), rest)
       else ((wl.FetchWord (rollCodeOfDraws vs), none), rest)) ∧
    (Nat.digits 10 (rollCodeOfDraws vs)).length = wl.Rolls ∧
    (∀ d ∈ Nat.digits 10 (rollCodeOfDraws vs), 1 ≤ d ∧ d ≤ wl.SidesOfDice) ∧
    (Nat.digits 10 (rollCodeOfDraws vs)).reverse = vs.map (· + 1) := by
  have hdig : Nat.digits 10 (rollCodeOfDraws vs) = (vs.map (· + 1)).reverse := by
    rw [rollCodeOfDraws]
    refine Nat.digits_ofDigits 10 (by norm_num) _ ?_ ?_
    · intro l hl
      rw [List.mem_reverse] at hl
      obtain ⟨v, hv, rfl⟩ := List.mem_map.mp hl
      have := hvs v hv
      omega
    · intro hne
      have hmem := List.getLast_mem hne
      rw [List.mem_reverse] at hmem
      obtain ⟨v, hv, heq⟩ := List.mem_map.mp hmem
      omega
  refine ⟨(RollWord_tapeOfDraws wl vs rest hlen).2, ?_, ?_, ?_⟩
  · rw [hdig]
    simp [hlen]
  · intro d hd
    rw [hdig, List.mem_reverse] at hd
    obtain ⟨v, hv, rfl⟩ := List.mem_map.mp hd
    have := hvs v hv
    exact ⟨by omega, by omega⟩
  · rw [hdig, List.reverse_reverse]

/-- C3 (witness): the amended theorem on a 2-dice 6-sided wordlist with
draws (2, 4); the roll-code is 35, read most-significant digit first. -/
theorem RollWord_rollcode_digits_witness :
    RollWord (some wl26) (tapeOfDraws [2, 4] ++ []) =
      (if (wl26.FetchWord (rollCodeOfDraws [2, 4])).length = 0 then
        (([], some (.invalidWordFetched (rollCodeOfDraws [2, 4]))), [])
       else ((wl26.FetchWord (rollCodeOfDraws [2, 4]), none), [])) ∧
    (Nat.digits 10 (rollCodeOfDraws [2, 4])).length = wl26.Rolls ∧
    (∀ d ∈ Nat.digits 10 (rollCodeOfDraws [2, 4]), 1 ≤ d ∧ d ≤ wl26.SidesOfDice) ∧
    (Nat.digits 10 (rollCodeOfDraws [2, 4])).reverse = [2, 4].map (· + 1) :=
  RollWord_rollcode_digits wl26 [2, 4] [] rfl (by decide) (by decide) (by decide)
    (by decide)

/-- C6: for every wordlist and successful sequence of in-range draws
`v_1, ..., v_rollsRequired`, `RollWord` computes the roll-code as the sum
over `i` from `rollsRequired` down to 1 of `10^(i-1) * (v + 1)`, with the
first draw at the highest decimal place value (index `j` below counts draws
in order, so draw `j` sits at place `10^(rollsRequired-1-j)`). -/
theorem RollWord_rollcode_sum (wl : Wordlist) (vs : List Nat) (rest : RandTape)
    (hlen : vs.length = wl.Rolls)
    (hvs : ∀ v ∈ vs, v < wl.SidesOfDice) :
    rollCodeOfDraws vs =
      (∑ j ∈ Finset.range wl.Rolls, 10 ^ (wl.Rolls - 1 - j) * (vs.getD j 0 + 1)) ∧
    rollLoop wl.SidesOfDice wl.Rolls 0 (tapeOfDraws vs ++ rest) =
      (some (rollCodeOfDraws vs), rest) ∧
    RollWord (some wl) (tapeOfDraws vs ++ rest) =
      (if (wl.FetchWord (rollCodeOfDraws vs)).length = 0 then
        (([], some (.invalidWordFetched (rollCodeOfDraws vs))), rest)
       else ((wl.FetchWord (rollCodeOfDraws vs), none), rest)) := by
  obtain ⟨h1, h2⟩ := RollWord_tapeOfDraws wl vs rest hlen
  refine ⟨?_, h1, h2⟩
  rw [rollCodeOfDraws, ofDigits_reverse_succ_eq_sum, hlen]

/-- C6 (witness): the sum formula on a 3-dice wordlist with draws (0, 1, 2):
roll-code 123. -/
theorem RollWord_rollcode_sum_witness :
    rollCodeOfDraws [0, 1, 2] =
      (∑ j ∈ Finset.range wl36.Rolls, 10 ^ (wl36.Rolls - 1 - j) * ([0, 1, 2].getD j 0 + 1)) ∧
    rollLoop wl36.SidesOfDice wl36.Rolls 0 (tapeOfDraws [0, 1, 2] ++ []) =
      (some (rollCodeOfDraws [0, 1, 2]), []) ∧
    RollWord (some wl36) (tapeOfDraws [0, 1, 2] ++ []) =
      (if (wl36.FetchWord (rollCodeOfDraws [0, 1, 2])).length = 0 then
        (([], some (.invalidWordFetched (rollCodeOfDraws [0, 1, 2]))), [])
       else ((wl36.FetchWord (rollCodeOfDraws [0, 1, 2]), none), [])) :=
  RollWord_rollcode_sum wl36 [0, 1, 2] [] rfl (by decide)

/-- C7: if `FetchWord` returns the empty string for the accumulated
roll-code, `RollWord` fails with `InvalidWordFetched` carrying that code; and
when the word roll for 0-based index `i` inside `RollWords` fails, `RollWords`
returns the underlying error wrapped with the 1-based index `i + 1`, with the
original error kind still identifiable by kind inspection. -/
theorem RollWord_fetch_error_and_RollWords_wrap :
    (∀ (wl : Wordlist) (tape : RandTape) (rv : Nat) (rest : RandTape),
      rollLoop wl.SidesOfDice wl.Rolls 0 tape = (some rv, rest) →
      wl.FetchWord rv = [] →
      RollWord (some wl) tape = (([], some (.invalidWordFetched rv)), rest)) ∧
    (∀ (defaultRandom : RandTape) (opts : PassphraseOptions) (wl : Wordlist)
        (i : Nat) (ws : List GoStr) (t : RandTape) (w : GoStr) (e : DiceErr)
        (t2 : RandTape),
      opts.Wordlist = some wl → 0 < opts.WordCount →
      genWords wl i 0 (opts.RandomSource.getD defaultRandom) = .ok (ws, t) →
      i < opts.WordCount.toNat →
      RollWord (some wl) t = ((w, some e), t2) →
      RollWords defaultRandom opts = ([], some (.wordWrap (i + 1) e)) ∧
        (DiceErr.wordWrap (i + 1) e).kind = e.kind) := by
  constructor
  · intro wl tape rv rest hroll hfetch
    rw [RollWord.eq_def]
    simp only
    rw [hroll]
    simp only
    rw [if_pos (by rw [hfetch]; rfl)]
  · intro d opts wl i ws t w e t2 hwl hwc hgen hlt hfail
    have hgerr : genWords wl opts.WordCount.toNat 0 (opts.RandomSource.getD d) =
        .error (.wordWrap (0 + i + 1) e) :=
      genWords_prefix_error hgen hfail hlt
    rw [Nat.zero_add] at hgerr
    refine ⟨?_, rfl⟩
    rw [RollWords.eq_def, hwl]
    simp only
    rw [if_neg (by omega)]
    rw [hgerr]

/-- C7 (witness): both parts on the all-empty wordlist: the direct
`RollWord` failure carrying roll-code 1, and the `RollWords` wrapping with
1-based index 1 for the failure of the word at 0-based index 0, with the
kind preserved. -/
theorem RollWord_fetch_error_and_RollWords_wrap_witness :
    RollWord (some wlEmpty) [drawZero] =
      (([], some (.invalidWordFetched 1)), []) ∧
    (RollWords [] optsC7 = ([], some (.wordWrap 1 (.invalidWordFetched 1))) ∧
      (DiceErr.wordWrap 1 (.invalidWordFetched 1)).kind =
        (DiceErr.invalidWordFetched 1).kind) := by
  have h := RollWord_fetch_error_and_RollWords_wrap
  exact ⟨h.1 wlEmpty [drawZero] 1 [] rfl rfl,
    h.2 [] optsC7 wlEmpty 0 [] [drawZero] [] (.invalidWordFetched 1) []
      rfl (by decide) rfl (by decide) rfl⟩

/-- C4: with EnhanceEntropy true and all draws and rolls succeeding, the
number `k` drawn from `[0, wordCount)` (the bound passed to the source is the
word count) sets `numToEnhance = k + 1`, so `1 ≤ numToEnhance ≤ wordCount`;
exactly the words at indices `0 .. k` are modified (each grows by one
character, so it differs from its word-roll output), and every word at index
`≥ k + 1` appears in the output exactly as its word roll produced it. -/
theorem RollWords_enhance_prefix (defaultRandom : RandTape)
    (opts : PassphraseOptions) (wl : Wordlist) (words words2 : List GoStr)
    (t1 t2 t3 : RandTape) (k : Nat)
    (hwl : opts.Wordlist = some wl) (hee : opts.EnhanceEntropy = true)
    (hwc : 0 < opts.WordCount)
    (hgen : genWords wl opts.WordCount.toNat 0
      (opts.RandomSource.getD defaultRandom) = .ok (words, t1))
    (hk : GetRandom t1 words.length = (some k, t2))
    (hkb : k < words.length)
    (hresp : RespectsBounds t2)
    (henh : enhanceLoop opts.Separator words 0 (k + 1) t2 = .ok (words2, t3)) :
    RollWords defaultRandom opts = (List.intercalate opts.Separator words2, none) ∧
    1 ≤ k + 1 ∧ k + 1 ≤ opts.WordCount.toNat ∧
    (∀ j, k + 1 ≤ j → words2.getD j [] = words.getD j []) ∧
    (∀ j, j < k + 1 → (words2.getD j []).length = (words.getD j []).length + 1 ∧
      words2.getD j [] ≠ words.getD j []) := by
  have hwlen : words.length = opts.WordCount.toNat := genWords_length hgen
  have henhF : enhanceLoopF opts.Separator (t2.length + 1) words 0 (k + 1) t2 =
      .ok (words2, t3) := henh
  obtain ⟨hlen2, hframe, hins⟩ := enhanceLoopF_spec (t2.length + 1) hresp henhF
  refine ⟨?_, by omega, by omega, ?_, ?_⟩
  · rw [RollWords.eq_def, hwl]
    simp only
    rw [if_neg (by omega)]
    rw [hgen]
    simp only
    rw [hee]
    simp only [if_true]
    rw [hk]
    simp only
    rw [henh]
  · intro j hj
    exact hframe j (Or.inr hj)
  · intro j hj
    obtain ⟨p, c, hp, -, -, heq⟩ := hins j (Nat.zero_le j) hj
    constructor
    · rw [heq]
      simp only [List.length_append, List.length_cons, List.length_take,
        List.length_drop]
      omega
    · intro hcontra
      rw [heq] at hcontra
      have := congrArg List.length hcontra
      simp only [List.length_append, List.length_cons, List.length_take,
        List.length_drop] at this
      omega

/-- C4 (witness): a full enhanced run with 2 words `"ab"`, `k = 0`
(`numToEnhance = 1`): the first word becomes `"a~b"`, the second is returned
untouched. -/
theorem RollWords_enhance_prefix_witness :
    RollWords [] optsC4 = (List.intercalate optsC4.Separator [['a', '~', 'b'], ['a', 'b']], none) ∧
    1 ≤ 1 ∧ 1 ≤ 2 ∧
    (∀ j, 1 ≤ j →
      ([['a', '~', 'b'], ['a', 'b']] : List GoStr).getD j [] =
        ([['a', 'b'], ['a', 'b']] : List GoStr).getD j []) ∧
    (∀ j, j < 1 →
      (([['a', '~', 'b'], ['a', 'b']] : List GoStr).getD j []).length =
        (([['a', 'b'], ['a', 'b']] : List GoStr).getD j []).length + 1 ∧
      ([['a', '~', 'b'], ['a', 'b']] : List GoStr).getD j [] ≠
        ([['a', 'b'], ['a', 'b']] : List GoStr).getD j []) :=
  RollWords_enhance_prefix [] optsC4 wlAB [['a', 'b'], ['a', 'b']]
    [['a', '~', 'b'], ['a', 'b']] (List.replicate 4 drawZero)
    (List.replicate 3 drawZero) [] 0 rfl rfl (by decide) rfl rfl (by decide)
    (respects_replicate_drawZero 3) rfl

/-- C5: every word enhanced by a successful entropy-enhancement run equals
the original word with exactly one character `c` inserted immediately after
a position `p` drawn from `[0, length(word))`: the result is
`word[0..p] ++ c ++ word[p+1..]`, one character longer than the original,
never changed in its first character (a length-1 word always becomes
`word ++ c`), and `c` is never a character contained in the separator. -/
theorem enhanceLoop_insertion (sep : GoStr) (words : List GoStr) (m : Nat)
    (tape : RandTape) (words2 : List GoStr) (t' : RandTape)
    (hresp : RespectsBounds tape)
    (h : enhanceLoop sep words 0 m tape = .ok (words2, t'))
    (j : Nat) (hj : j < m) :
    ∃ p c, p < (words.getD j []).length ∧
      words2.getD j [] =
        (words.getD j []).take (p + 1) ++ c :: (words.getD j []).drop (p + 1) ∧
      (words2.getD j []).length = (words.getD j []).length + 1 ∧
      (words2.getD j []).headD ' ' = (words.getD j []).headD ' ' ∧
      ((words.getD j []).length = 1 → words2.getD j [] = words.getD j [] ++ [c]) ∧
      c ∉ sep := by
  rw [enhanceLoop] at h
  obtain ⟨-, -, hins⟩ := enhanceLoopF_spec (tape.length + 1) hresp h
  obtain ⟨p, c, hp, -, hcsep, heq⟩ := hins j (Nat.zero_le j) hj
  refine ⟨p, c, hp, heq, ?_, ?_, ?_, ?_⟩
  · rw [heq]
    simp only [List.length_append, List.length_cons, List.length_take,
      List.length_drop]
    omega
  · rw [heq]
    obtain ⟨a, w', hw⟩ : ∃ a w', words.getD j [] = a :: w' := by
      cases hw : words.getD j [] with
      | nil => rw [hw] at hp; simp at hp
      | cons a w' => exact ⟨a, w', rfl⟩
    rw [hw]
    simp [List.take_cons]
  · intro hL1
    have hp0 : p = 0 := by omega
    subst hp0
    have hw := eq_singleton_of_length_one hL1
    rw [heq, hw]
    rfl
  · intro hmem
    rw [← containsGo_singleton] at hmem
    rw [hmem] at hcsep
    exact absurd hcsep (by simp)

/-- C5 (witness): enhancing the single word `"ab"` with separator `"-"` and
all-zero draws inserts `'~'` after position 0, giving `"a~b"`. -/
theorem enhanceLoop_insertion_witness :
    ∃ p c, p < (([['a', 'b']] : List GoStr).getD 0 []).length ∧
      (([['a', '~', 'b']] : List GoStr).getD 0 []) =
        (([['a', 'b']] : List GoStr).getD 0 []).take (p + 1) ++
          c :: (([['a', 'b']] : List GoStr).getD 0 []).drop (p + 1) ∧
      (([['a', '~', 'b']] : List GoStr).getD 0 []).length =
        (([['a', 'b']] : List GoStr).getD 0 []).length + 1 ∧
      (([['a', '~', 'b']] : List GoStr).getD 0 []).headD ' ' =
        (([['a', 'b']] : List GoStr).getD 0 []).headD ' ' ∧
      ((([['a', 'b']] : List GoStr).getD 0 []).length = 1 →
        (([['a', '~', 'b']] : List GoStr).getD 0 []) =
          (([['a', 'b']] : List GoStr).getD 0 []) ++ [c]) ∧
      c ∉ (['-'] : GoStr) :=
  enhanceLoop_insertion ['-'] [['a', 'b']] 1 (List.replicate 3 drawZero)
    [['a', '~', 'b']] [] (respects_replicate_drawZero 3) rfl 0 (by decide)

/-- C10: the separator-collision retry loop advances `i` only when the drawn
entropy character is not contained in the separator (first conjunct: a
colliding draw leaves the word list and index unchanged and only consumes
the tape).  If the separator contains all 36 characters of the ExtraEntropy
table, the loop can never succeed — for every finite sequence of draws it
either retries forever or aborts on a failing draw, so `RollWords` with
EnhanceEntropy true never terminates successfully (second conjunct: no tape
makes it return `ok`).  A run can only succeed if some table character is
not contained in the separator (third conjunct). -/
theorem enhance_retry_no_success :
    (∀ (sep : GoStr) (fuel : Nat) (words : List GoStr) (i m : Nat)
        (tape : RandTape) (enh : GoStr) (t1 : RandTape),
      i < m → RollWord (some ExtraEntropy) tape = ((enh, none), t1) →
      containsGo sep enh = true →
      enhanceLoopF sep (fuel + 1) words i m tape =
        enhanceLoopF sep fuel words i m t1) ∧
    (∀ (sep : GoStr), (∀ c ∈ extraEntropyChars, c ∈ sep) →
      ∀ (fuel : Nat) (words : List GoStr) (i m : Nat) (tape : RandTape)
        (ws : List GoStr) (t : RandTape),
      i < m → enhanceLoopF sep fuel words i m tape ≠ .ok (ws, t)) ∧
    (∀ (sep : GoStr) (fuel : Nat) (words : List GoStr) (i m : Nat)
        (tape : RandTape) (ws : List GoStr) (t : RandTape),
      i < m → enhanceLoopF sep fuel words i m tape = .ok (ws, t) →
      ∃ c ∈ extraEntropyChars, c ∉ sep) := by
  have hb : ∀ (sep : GoStr), (∀ c ∈ extraEntropyChars, c ∈ sep) →
      ∀ (fuel : Nat) (words : List GoStr) (i m : Nat) (tape : RandTape)
        (ws : List GoStr) (t : RandTape),
      i < m → enhanceLoopF sep fuel words i m tape ≠ .ok (ws, t) := by
    intro sep hall fuel
    induction fuel with
    | zero =>
      intro words i m tape ws t him h
      rw [enhanceLoopF_zero him] at h
      simp at h
    | succ fuel ih =>
      intro words i m tape ws t him h
      cases hr : RollWord (some ExtraEntropy) tape with
      | mk p t1 =>
        obtain ⟨enh, e0⟩ := p
        cases e0 with
        | some e =>
          rw [enhanceLoopF_roll_error him hr] at h
          simp at h
        | none =>
          obtain ⟨c, rfl, hcmem⟩ := RollWord_ExtraEntropy_singleton hr
          have hcsep : containsGo sep [c] = true :=
            containsGo_singleton.mpr (hall c hcmem)
          rw [enhanceLoopF_continue him hr hcsep] at h
          exact ih words i m t1 ws t him h
  refine ⟨fun sep fuel words i m tape enh t1 him hr hc =>
    enhanceLoopF_continue him hr hc, hb, ?_⟩
  intro sep fuel words i m tape ws t him h
  by_contra hno
  push_neg at hno
  exact hb sep hno fuel words i m tape ws t him h

/-- C10 (witness): a colliding draw (`'~'` with separator `"~"`) retries at
the same index; with the separator containing all 36 table characters no
draw sequence can make the loop succeed; and the successful run with
separator `"-"` shows a table character outside the separator. -/
theorem enhance_retry_no_success_witness :
    enhanceLoopF ['~'] 2 [['a']] 0 1 [drawZero, drawZero] =
      enhanceLoopF ['~'] 1 [['a']] 0 1 [] ∧
    enhanceLoopF extraEntropyChars 5 [['a']] 0 1 [drawZero, drawZero] ≠
      .ok ([['a']], []) ∧
    ∃ c ∈ extraEntropyChars, c ∉ (['-'] : GoStr) := by
  have h := enhance_retry_no_success
  exact ⟨h.1 ['~'] 1 [['a']] 0 1 [drawZero, drawZero] ['~'] [] (by decide) rfl rfl,
    h.2.1 extraEntropyChars (by decide) 5 [['a']] 0 1 [drawZero, drawZero]
      [['a']] [] (by decide),
    h.2.2 ['-'] 4 [['a', 'b']] 0 1 (List.replicate 3 drawZero)
      [['a', '~', 'b']] [] (by decide) rfl⟩

end Diceware
